import Mathlib

/-!
Verification of the snippet-matching core of the PDF Facts Analyzer backend
(src/backend/app.py).  Texts are modelled as lists of characters (Python
string indices are character indices).  Python floats are modelled by exact
rational arithmetic: scores are carried as unnormalised fractions of natural
numbers (`Frac`), compared by cross multiplication, and interpreted in `ℚ`
via `Frac.toQ` for the value-level statements.
-/

namespace PDFFacts

/-- Backslash character (code 92), written via its code point. -/
def bslash : Char := Char.ofNat 92

/-- Apostrophe character (code 39), written via its code point. -/
def apos : Char := Char.ofNat 39

/-- Fallback character used for out-of-range list reads; the algorithms
below only read in-range indices. -/
def dchar : Char := Char.ofNat 0

/-- An exact nonnegative rational carried as an unnormalised fraction.
This models the value of a Python float score without rounding. -/
structure Frac where
  num : ℕ
  den : ℕ
deriving DecidableEq, Repr

/-- Interpretation of a `Frac` as a rational number. -/
def Frac.toQ (f : Frac) : ℚ := (f.num : ℚ) / (f.den : ℚ)

/-- Strict comparison of two fractions by cross multiplication.  For
positive denominators this agrees with comparison of the values, which is
how Python compares the (exact) float scores. -/
def Frac.blt (x y : Frac) : Bool := decide (x.num * y.den < y.num * x.den)

/-- Sum of two fractions, as computed on exact values. -/
def Frac.add (x y : Frac) : Frac := ⟨x.num * y.den + y.num * x.den, x.den * y.den⟩

/-- Python `str.lower` restricted to ASCII, which is `Char.toLower`. -/
def pyLowerChar (c : Char) : Char := c.toLower

/-- Lower-case a text, modelling `text.lower()`. -/
def pyLower (l : List Char) : List Char := l.map pyLowerChar

/-- Python whitespace as stripped by `str.strip()` (ASCII range):
space, tab, newline, carriage return, vertical tab, form feed. -/
def isPySpace (c : Char) : Bool :=
  c = ' ' || c.toNat = 9 || c.toNat = 10 || c.toNat = 13 || c.toNat = 11 || c.toNat = 12

/-- Python `str.strip()`: drop leading and trailing whitespace. -/
def pyStrip (l : List Char) : List Char :=
  ((l.dropWhile isPySpace).reverse.dropWhile isPySpace).reverse

/-- A word character in the sense of the regular expression class `\w`
(ASCII model): letter, digit or underscore. -/
def isWordChar (c : Char) : Bool := c.isAlphanum || c = '_'

/-- Helper for `wordTokens`: accumulate the current run of word characters
(in reverse) while scanning the text. -/
def tokensAux : List Char → List Char → List (List Char)
  | cur, [] => if cur = [] then [] else [cur.reverse]
  | cur, c :: cs =>
    if isWordChar c then tokensAux (c :: cur) cs
    else if cur = [] then tokensAux [] cs
    else cur.reverse :: tokensAux [] cs

/-- All maximal runs of word characters, modelling `re.findall(r"\w+", s)`. -/
def wordTokens (l : List Char) : List (List Char) := tokensAux [] l

/-- Whether `needle` is a prefix of `hay`. -/
def startsWith : List Char → List Char → Bool
  | [], _ => true
  | _ :: _, [] => false
  | c :: cs, h :: hs => (c = h) && startsWith cs hs

/-- Whether `needle` occurs as a contiguous substring of `hay`, modelling
the Python test `needle in hay` on strings. -/
def substr (needle : List Char) : List Char → Bool
  | [] => decide (needle = [])
  | h :: hs => startsWith needle (h :: hs) || substr needle hs

/-- The keyword-hit count of `compute_similarity`: how many word tokens of
the lower-cased pointer occur as substrings of the lower-cased sentence. -/
def keyword_hits (sentence pointer : List Char) : ℕ :=
  ((wordTokens (pyLower pointer)).filter (fun t => substr t (pyLower sentence))).length

/-!
`difflib.SequenceMatcher(None, a, b)` with its default autojunk heuristic.
The scan of `find_longest_match` considers anchors only at positions of `b`
whose character is not "popular" (autojunk), finds the longest run of
pairwise equal, non-popular characters, preferring the first maximum in
scan order (`i` ascending, then `j` ascending), and then extends the block
over equal characters at both ends.
-/

/-- A character of `b` is popular (autojunk) when `b` has at least 200
characters and the character occurs more than `len(b) / 100 + 1` times. -/
def isPopular (b : List Char) (c : Char) : Bool :=
  decide (200 ≤ b.length) && decide (b.length / 100 + 1 < b.count c)

/-- Whether position pair `(i, j)` can anchor a match: the characters agree
and the character of `b` at `j` is not popular. -/
def anchorAt (a b : List Char) (i j : ℕ) : Bool :=
  (a.getD i dchar = b.getD j dchar) && !(isPopular b (b.getD j dchar))

/-- Length of the run of anchor pairs ending at `(i, j)` that stays inside
the window starting at `(alo, blo)`; this is the value `j2len[j]` computed
by the scan of `find_longest_match` at row `i`. -/
def matchRun (a b : List Char) (alo blo : ℕ) : ℕ → ℕ → ℕ
  | 0, j => if anchorAt a b 0 j then 1 else 0
  | i + 1, 0 => if anchorAt a b (i + 1) 0 then 1 else 0
  | i + 1, j + 1 =>
    if anchorAt a b (i + 1) (j + 1) then
      (if alo ≤ i ∧ blo ≤ j then matchRun a b alo blo i j else 0) + 1
    else 0

/-- All window positions in scan order: `i` ascending over `[alo, ahi)`,
and for each `i`, `j` ascending over `[blo, bhi)`. -/
def scanPairs (alo ahi blo bhi : ℕ) : List (ℕ × ℕ) :=
  (List.range' alo (ahi - alo)).flatMap
    (fun i => (List.range' blo (bhi - blo)).map (fun j => (i, j)))

/-- The best-block fold of `find_longest_match`: the current best triple
`(besti, bestj, bestsize)` is replaced exactly when a strictly longer run
ends at the scanned pair, so the first maximum in scan order wins. -/
def bestScan (a b : List Char) (alo blo : ℕ) :
    List (ℕ × ℕ) → ℕ × ℕ × ℕ → ℕ × ℕ × ℕ
  | [], best => best
  | (i, j) :: rest, best =>
    let k := matchRun a b alo blo i j
    if best.2.2 < k then bestScan a b alo blo rest (i + 1 - k, j + 1 - k, k)
    else bestScan a b alo blo rest best

/-- Extend a block to the left over equal characters while staying inside
the window (the junk set is empty since `isjunk=None`). -/
def extendLeft (a b : List Char) (alo blo : ℕ) : ℕ → ℕ → ℕ → ℕ × ℕ × ℕ
  | bi + 1, bj + 1, bs =>
    if alo ≤ bi ∧ blo ≤ bj ∧ a.getD bi dchar = b.getD bj dchar then
      extendLeft a b alo blo bi bj (bs + 1)
    else (bi + 1, bj + 1, bs)
  | bi, bj, bs => (bi, bj, bs)

/-- Extend a block to the right over equal characters while staying inside
the window; `fuel` bounds the iteration and never runs out because each
step needs `bi + bs < ahi`. -/
def extendRightAux (a b : List Char) (ahi bhi bi bj : ℕ) : ℕ → ℕ → ℕ
  | 0, bs => bs
  | fuel + 1, bs =>
    if bi + bs < ahi ∧ bj + bs < bhi ∧ a.getD (bi + bs) dchar = b.getD (bj + bs) dchar then
      extendRightAux a b ahi bhi bi bj fuel (bs + 1)
    else bs

/-- Right extension of a block, with sufficient fuel. -/
def extendRight (a b : List Char) (ahi bhi bi bj bs : ℕ) : ℕ :=
  extendRightAux a b ahi bhi bi bj (ahi - (bi + bs)) bs

/-- `SequenceMatcher.find_longest_match` on the window
`a[alo:ahi]`, `b[blo:bhi]`, returning `(besti, bestj, bestsize)`. -/
def find_longest_match (a b : List Char) (alo ahi blo bhi : ℕ) : ℕ × ℕ × ℕ :=
  let s := bestScan a b alo blo (scanPairs alo ahi blo bhi) (alo, blo, 0)
  let l := extendLeft a b alo blo s.1 s.2.1 s.2.2
  (l.1, l.2.1, extendRight a b ahi bhi l.1 l.2.1 l.2.2)

/-- The recursion of `get_matching_blocks`: take the longest match of the
window and recurse on the parts before and after it.  `fuel` bounds the
recursion depth; every recursive window is strictly smaller, so starting
`fuel` above the window size never truncates (see `matchingBlocksAux_fuel`). -/
def matchingBlocksAux (a b : List Char) : ℕ → ℕ → ℕ → ℕ → ℕ → List (ℕ × ℕ × ℕ)
  | 0, _, _, _, _ => []
  | fuel + 1, alo, ahi, blo, bhi =>
    let m := find_longest_match a b alo ahi blo bhi
    if m.2.2 = 0 then []
    else
      matchingBlocksAux a b fuel alo m.1 blo m.2.1 ++
        m :: matchingBlocksAux a b fuel (m.1 + m.2.2) ahi (m.2.1 + m.2.2) bhi

/-- The matching blocks of the two full texts (without the terminating
sentinel block, which has size zero and does not contribute to the ratio). -/
def matchingBlocks (a b : List Char) : List (ℕ × ℕ × ℕ) :=
  matchingBlocksAux a b (a.length + 1) 0 a.length 0 b.length

/-- Total number of matched characters, the `matches` of
`SequenceMatcher.ratio`. -/
def totalMatched (a b : List Char) : ℕ :=
  ((matchingBlocks a b).map (fun m => m.2.2)).sum

/-- `SequenceMatcher.ratio`: `2 * matches / (len(a) + len(b))`, and `1`
when both texts are empty, as an exact fraction. -/
def sm_ratioF (a b : List Char) : Frac :=
  if a.length + b.length = 0 then ⟨1, 1⟩
  else ⟨2 * totalMatched a b, a.length + b.length⟩

/-- The value of `SequenceMatcher.ratio` as a rational number. -/
def sm_ratio (a b : List Char) : ℚ := (sm_ratioF a b).toQ

/-- `compute_similarity` of app.py: the ratio of the lower-cased texts plus
`0.1` per keyword hit, as an exact fraction. -/
def compute_similarity (sentence pointer : List Char) : Frac :=
  (sm_ratioF (pyLower sentence) (pyLower pointer)).add ⟨keyword_hits sentence pointer, 10⟩

/-- The similarity score as a rational number. -/
def scoreQ (sentence pointer : List Char) : ℚ := (compute_similarity sentence pointer).toQ

/-!
Sentence segmentation of `find_snippets`: the scan of the compiled pattern
`[^.!?\\n]+[.!?]?` over the page text.  In the raw string the backslash
escapes itself, so the character class excludes the five characters
`.`, `!`, `?`, `\` and the letter `n`; a match is a maximal run of other
characters followed by at most one of `.`, `!`, `?`.
-/

/-- The three sentence-terminator characters consumed optionally at the end
of a match. -/
def isTerm (c : Char) : Bool := c = '.' || c = '!' || c = '?'

/-- The characters excluded from the repeated class of the pattern:
the terminators, the backslash and the letter `n`. -/
def isBreak (c : Char) : Bool := isTerm c || c = bslash || c = 'n'

/-- The matches of `pattern.finditer(page_text)` as half-open index spans
`(start, stop)`.  `i` is the current absolute position and `cur` the start
of the currently open run, if any. -/
def segSpans : ℕ → Option ℕ → List Char → List (ℕ × ℕ)
  | i, some s, [] => [(s, i)]
  | _, none, [] => []
  | i, cur, c :: cs =>
    if isTerm c then
      match cur with
      | some s => (s, i + 1) :: segSpans (i + 1) none cs
      | none => segSpans (i + 1) none cs
    else if isBreak c then
      match cur with
      | some s => (s, i) :: segSpans (i + 1) none cs
      | none => segSpans (i + 1) none cs
    else segSpans (i + 1) (some (cur.getD i)) cs

/-- All regex match spans of the page text, in scan order. -/
def pySegment (text : List Char) : List (ℕ × ℕ) := segSpans 0 none text

/-- Python slicing `text[s:e]` for `s ≤ e`. -/
def pySlice (text : List Char) (s e : ℕ) : List Char := (text.drop s).take (e - s)

/-- A scored sentence candidate of the Page Matcher, before ranking. -/
structure Candidate where
  snippet : List Char
  start : ℕ
  stop : ℕ
  score : Frac
deriving DecidableEq, Repr

/-- The candidate list built by the scan loop of `find_snippets`: each
match is stripped, empty results are discarded, and the rest are scored. -/
def candidates (page_text pointer : List Char) : List Candidate :=
  (pySegment page_text).filterMap fun sp =>
    let sentence := pyStrip (pySlice page_text sp.1 sp.2)
    if sentence = [] then none
    else some ⟨sentence, sp.1, sp.2, compute_similarity sentence pointer⟩

/-- Stable insertion used to model Python `list.sort`: the new element `c`
is placed after every element `d` with `before d c` and before the rest,
so elements the comparison ties keep their original relative order. -/
def insertKeyed {α : Type} (before : α → α → Bool) (c : α) : List α → List α
  | [] => [c]
  | d :: ds => if before d c then d :: insertKeyed before c ds else c :: d :: ds

/-- Stable sort: the unique stable order for the strict precedence test
`before`, matching Python `list.sort` with the corresponding key. -/
def sortKeyed {α : Type} (before : α → α → Bool) : List α → List α
  | [] => []
  | c :: cs => insertKeyed before c (sortKeyed before cs)

/-- Precedence test of `candidates.sort(key=score, reverse=True)`:
`d` comes strictly first when its score is strictly larger. -/
def scoreBefore (d c : Candidate) : Bool := Frac.blt c.score d.score

/-- `find_snippets` of app.py: scan the page, sort the candidates by score
descending (stable), and keep the first `max_snippets`. -/
def find_snippets (page_text pointer : List Char) (max_snippets : ℕ := 2) :
    List Candidate :=
  (sortKeyed scoreBefore (candidates page_text pointer)).take max_snippets

/-- One page as supplied to the core: its 1-based number and its text. -/
structure Page where
  page : ℕ
  text : List Char
deriving DecidableEq, Repr

/-- One reported match of the response payload.  `page`, `start` and `stop`
are `none` exactly in the synthetic no-match entry. -/
structure MatchEntry where
  snippet : List Char
  page : Option ℕ
  start : Option ℕ
  stop : Option ℕ
  rationale : List Char
deriving DecidableEq, Repr

/-- Two-decimal fixed-point rendering of a nonnegative fraction, rounding
half to even, modelling the format specifier `.2f` applied to the score. -/
def format2 (f : Frac) : List Char :=
  let n := f.num * 100
  let q := n / f.den
  let r := n % f.den
  let m :=
    if f.den < 2 * r then q + 1
    else if 2 * r < f.den then q
    else if q % 2 = 0 then q else q + 1
  Nat.toDigits 10 (m / 100) ++
    '.' :: ((if m % 100 < 10 then [Char.ofNat 48] else []) ++ Nat.toDigits 10 (m % 100))

/-- The rationale string interpolated by `build_response_entry` for a real
match: the pointer in single quotes and the score to two decimals. -/
def rationaleText (pointer : List Char) (score : Frac) : List Char :=
  "Sentence matched pointer ".data ++ apos :: pointer ++ apos ::
    " with similarity ".data ++ format2 score ++ ".".data

/-- The `MatchEntry` built from one candidate of one page. -/
def mkMatchEntry (pointer : List Char) (pageNum : ℕ) (c : Candidate) : MatchEntry :=
  ⟨c.snippet, some pageNum, some c.start, some c.stop, rationaleText pointer c.score⟩

/-- The synthetic fallback entry produced when no page yields a candidate. -/
def noMatchEntry : MatchEntry :=
  ⟨[], none, none, none, "No matching text found for the pointer.".data⟩

/-- The flattened matches of one pointer across all pages, in page order,
each page contributing its top snippets in score order. -/
def flatMatches (pointer : List Char) (pages : List Page) : List MatchEntry :=
  pages.flatMap fun pg => (find_snippets pg.text pointer 2).map (mkMatchEntry pointer pg.page)

/-- Sort key of the final `matches.sort`: the page number, with `none`
replaced by `1000000`. -/
def pageKey (e : MatchEntry) : ℕ := e.page.getD 1000000

/-- Precedence test of the final sort: strictly smaller page key first. -/
def pageBefore (d c : MatchEntry) : Bool := decide (pageKey d < pageKey c)

/-- The report for one pointer. -/
structure PointerReport where
  pointer : List Char
  matchList : List MatchEntry
deriving DecidableEq, Repr

/-- `build_response_entry` of app.py: flatten the per-page matches, fall
back to the synthetic entry when there are none, and otherwise sort by
page number (stable). -/
def build_response_entry (pointer : List Char) (pages : List Page) : PointerReport :=
  let ms := flatMatches pointer pages
  if ms = [] then ⟨pointer, [noMatchEntry]⟩
  else ⟨pointer, sortKeyed pageBefore ms⟩

/-- The core document pipeline: one report per pointer, in input order. -/
def analyzeDocument (pages : List Page) (pointers : List (List Char)) :
    List PointerReport :=
  pointers.map fun p => build_response_entry p pages

/-! ### Basic facts about fractions -/

theorem Frac.toQ_nonneg (f : Frac) : 0 ≤ f.toQ := by
  unfold Frac.toQ; positivity

theorem Frac.toQ_add (x y : Frac) (hx : x.den ≠ 0) (hy : y.den ≠ 0) :
    (x.add y).toQ = x.toQ + y.toQ := by
  unfold Frac.add Frac.toQ
  have hx' : (x.den : ℚ) ≠ 0 := by exact_mod_cast hx
  have hy' : (y.den : ℚ) ≠ 0 := by exact_mod_cast hy
  push_cast
  field_simp

theorem Frac.blt_iff (x y : Frac) (hx : 0 < x.den) (hy : 0 < y.den) :
    Frac.blt x y = true ↔ x.toQ < y.toQ := by
  have hx' : (0 : ℚ) < x.den := by exact_mod_cast hx
  have hy' : (0 : ℚ) < y.den := by exact_mod_cast hy
  unfold Frac.blt Frac.toQ
  rw [decide_eq_true_eq, div_lt_div_iff₀ hx' hy']
  exact_mod_cast Iff.rfl

theorem Frac.blt_false_iff (x y : Frac) (hx : 0 < x.den) (hy : 0 < y.den) :
    Frac.blt x y = false ↔ y.toQ ≤ x.toQ := by
  rw [← not_lt, ← Frac.blt_iff x y hx hy]
  simp

/-- The denominator of every similarity score is positive. -/
theorem compute_similarity_den_pos (s p : List Char) :
    0 < (compute_similarity s p).den := by
  unfold compute_similarity Frac.add sm_ratioF
  by_cases h : (pyLower s).length + (pyLower p).length = 0
  · simp [h]
  · simp only [h, if_false]
    omega

/-! ### The stable sort -/

theorem insertKeyed_decomp {α : Type} (before : α → α → Bool) (c : α) (l : List α) :
    ∃ l₁ l₂, l = l₁ ++ l₂ ∧ insertKeyed before c l = l₁ ++ c :: l₂ ∧
      ∀ d ∈ l₁, before d c = true := by
  induction l with
  | nil => exact ⟨[], [], rfl, rfl, by simp⟩
  | cons d ds ih =>
    by_cases h : before d c = true
    · obtain ⟨l₁, l₂, h1, h2, h3⟩ := ih
      refine ⟨d :: l₁, l₂, by simp [h1], by simp [insertKeyed, h, h2], ?_⟩
      intro x hx
      rcases List.mem_cons.mp hx with hx | hx
      · exact hx ▸ h
      · exact h3 x hx
    · exact ⟨[], d :: ds, rfl, by simp [insertKeyed, h], by simp⟩

theorem insertKeyed_perm {α : Type} (before : α → α → Bool) (c : α) (l : List α) :
    (insertKeyed before c l).Perm (c :: l) := by
  obtain ⟨l₁, l₂, h1, h2, -⟩ := insertKeyed_decomp before c l
  rw [h2, h1]
  exact List.perm_middle

theorem sortKeyed_perm {α : Type} (before : α → α → Bool) (l : List α) :
    (sortKeyed before l).Perm l := by
  induction l with
  | nil => rfl
  | cons c cs ih =>
    exact ((insertKeyed_perm before c (sortKeyed before cs)).trans (ih.cons c))

theorem mem_sortKeyed {α : Type} (before : α → α → Bool) (l : List α) (x : α) :
    x ∈ sortKeyed before l ↔ x ∈ l :=
  (sortKeyed_perm before l).mem_iff

theorem pairwise_insertKeyed {α : Type} (before : α → α → Bool)
    {P : α → α → Prop} (htrans : ∀ x y z : α, P x y → P y z → P x z)
    (c : α) (l : List α)
    (h1 : ∀ d ∈ l, before d c = true → P d c)
    (h2 : ∀ d ∈ l, before d c = false → P c d)
    (hp : l.Pairwise P) : (insertKeyed before c l).Pairwise P := by
  induction l with
  | nil => simp [insertKeyed]
  | cons d ds ih =>
    rcases List.pairwise_cons.mp hp with ⟨hd, hds⟩
    by_cases h : before d c = true
    · simp only [insertKeyed, h, if_true]
      refine List.pairwise_cons.mpr ⟨?_, ?_⟩
      · intro x hx
        rcases List.mem_cons.mp ((insertKeyed_perm before c ds).mem_iff.mp hx) with hx | hx
        · exact hx ▸ h1 d (List.mem_cons_self d ds) h
        · exact hd x hx
      · exact ih (fun e he hb => h1 e (List.mem_cons_of_mem d he) hb)
          (fun e he hb => h2 e (List.mem_cons_of_mem d he) hb) hds
    · simp only [insertKeyed, h, if_false]
      refine List.pairwise_cons.mpr ⟨?_, hp⟩
      intro x hx
      rcases List.mem_cons.mp hx with hx | hx
      · exact hx ▸ h2 d (List.mem_cons_self d ds) (by simpa using h)
      · exact htrans _ _ _ (h2 d (List.mem_cons_self d ds) (by simpa using h)) (hd x hx)

theorem sortKeyed_pairwise {α : Type} (before : α → α → Bool)
    {P : α → α → Prop} (htrans : ∀ x y z : α, P x y → P y z → P x z)
    (l : List α)
    (hall1 : ∀ c ∈ l, ∀ d ∈ l, before d c = true → P d c)
    (hall2 : ∀ c ∈ l, ∀ d ∈ l, before d c = false → P c d) :
    (sortKeyed before l).Pairwise P := by
  induction l with
  | nil => simp [sortKeyed]
  | cons c cs ih =>
    simp only [sortKeyed]
    refine pairwise_insertKeyed before htrans c (sortKeyed before cs) ?_ ?_ ?_
    · intro d hd hb
      exact hall1 c (List.mem_cons_self c cs)
        d (List.mem_cons_of_mem c ((mem_sortKeyed before cs d).mp hd)) hb
    · intro d hd hb
      exact hall2 c (List.mem_cons_self c cs)
        d (List.mem_cons_of_mem c ((mem_sortKeyed before cs d).mp hd)) hb
    · exact ih
        (fun x hx d hd hb => hall1 x (List.mem_cons_of_mem c hx) d (List.mem_cons_of_mem c hd) hb)
        (fun x hx d hd hb => hall2 x (List.mem_cons_of_mem c hx) d (List.mem_cons_of_mem c hd) hb)

theorem filter_insertKeyed {α β : Type} [DecidableEq β] (before : α → α → Bool)
    (f : α → β) (v : β) (c : α) (l : List α)
    (hb : ∀ d ∈ l, before d c = true → f d ≠ f c) :
    (insertKeyed before c l).filter (fun x => decide (f x = v)) =
      if f c = v then c :: l.filter (fun x => decide (f x = v))
      else l.filter (fun x => decide (f x = v)) := by
  obtain ⟨l₁, l₂, h1, h2, h3⟩ := insertKeyed_decomp before c l
  rw [h2, h1, List.filter_append, List.filter_append]
  by_cases hv : f c = v
  · have : l₁.filter (fun x => decide (f x = v)) = [] := by
      refine List.filter_eq_nil_iff.mpr ?_
      intro d hd
      simp only [decide_eq_true_eq]
      exact fun hfd => hb d (by simp [h1, hd]) (h3 d hd) (hfd.trans hv.symm)
    simp [hv, this]
  · simp [hv]

theorem filter_sortKeyed {α β : Type} [DecidableEq β] (before : α → α → Bool)
    (f : α → β) (v : β) (l : List α)
    (hall : ∀ c ∈ l, ∀ d ∈ l, before d c = true → f d ≠ f c) :
    (sortKeyed before l).filter (fun x => decide (f x = v)) =
      l.filter (fun x => decide (f x = v)) := by
  induction l with
  | nil => rfl
  | cons c cs ih =>
    have hb : ∀ d ∈ sortKeyed before cs, before d c = true → f d ≠ f c := by
      intro d hd hbd
      exact hall c (List.mem_cons_self c cs)
        d (List.mem_cons_of_mem c ((mem_sortKeyed before cs d).mp hd)) hbd
    have ihs := ih
      (fun x hx d hd hb => hall x (List.mem_cons_of_mem c hx) d (List.mem_cons_of_mem c hd) hb)
    rw [sortKeyed, filter_insertKeyed before f v c (sortKeyed before cs) hb, ihs]
    by_cases hv : f c = v <;> simp [hv, List.filter_cons]

/-! ### Window invariants of the matcher -/

theorem matchRun_le (a b : List Char) (alo blo : ℕ) :
    ∀ i j, alo ≤ i → blo ≤ j →
      matchRun a b alo blo i j ≤ i + 1 - alo ∧
        matchRun a b alo blo i j ≤ j + 1 - blo := by
  intro i
  induction i with
  | zero =>
    intro j h1 h2
    simp only [matchRun]
    split <;> omega
  | succ i ih =>
    intro j h1 h2
    match j with
    | 0 =>
      simp only [matchRun]
      split <;> omega
    | j + 1 =>
      cases hA : anchorAt a b (i + 1) (j + 1) with
      | false => simp [matchRun, hA]
      | true =>
        by_cases hg : alo ≤ i ∧ blo ≤ j
        · have := ih j hg.1 hg.2
          simp only [matchRun, hA, if_true]
          rw [if_pos hg]
          omega
        · simp only [matchRun, hA, if_true]
          rw [if_neg hg]
          omega

/-- The invariant carried by the best-block triple: it stays inside the
window `[alo, ahi) × [blo, bhi)`. -/
def InWindow (alo ahi blo bhi : ℕ) (t : ℕ × ℕ × ℕ) : Prop :=
  alo ≤ t.1 ∧ blo ≤ t.2.1 ∧ t.1 + t.2.2 ≤ ahi ∧ t.2.1 + t.2.2 ≤ bhi

theorem bestScan_inv (a b : List Char) (alo blo ahi bhi : ℕ) :
    ∀ (ps : List (ℕ × ℕ)) (best : ℕ × ℕ × ℕ),
      (∀ p ∈ ps, alo ≤ p.1 ∧ p.1 < ahi ∧ blo ≤ p.2 ∧ p.2 < bhi) →
      InWindow alo ahi blo bhi best →
      InWindow alo ahi blo bhi (bestScan a b alo blo ps best) := by
  intro ps
  induction ps with
  | nil => intro best _ hbest; simpa [bestScan] using hbest
  | cons p rest ih =>
    intro best hps hbest
    obtain ⟨i, j⟩ := p
    have hp := hps (i, j) (List.mem_cons_self _ _)
    have hrest : ∀ q ∈ rest, alo ≤ q.1 ∧ q.1 < ahi ∧ blo ≤ q.2 ∧ q.2 < bhi :=
      fun q hq => hps q (List.mem_cons_of_mem _ hq)
    have hm := matchRun_le a b alo blo i j hp.1 hp.2.2.1
    simp only [bestScan]
    by_cases hlt : best.2.2 < matchRun a b alo blo i j
    · simp only [hlt, if_true]
      refine ih _ hrest ?_
      unfold InWindow at hbest ⊢
      dsimp only
      omega
    · simp only [hlt, if_false]
      exact ih best hrest hbest

theorem extendLeft_inv (a b : List Char) (alo blo ahi bhi : ℕ) :
    ∀ bi bj bs, InWindow alo ahi blo bhi (bi, bj, bs) →
      InWindow alo ahi blo bhi (extendLeft a b alo blo bi bj bs) := by
  intro bi
  induction bi with
  | zero =>
    intro bj bs h
    cases bj <;> simpa [extendLeft] using h
  | succ bi ih =>
    intro bj bs h
    cases bj with
    | zero => simpa [extendLeft] using h
    | succ bj =>
      by_cases hg : alo ≤ bi ∧ blo ≤ bj ∧ a.getD bi dchar = b.getD bj dchar
      · simp only [extendLeft, hg, if_true]
        refine ih bj (bs + 1) ?_
        unfold InWindow at h ⊢
        dsimp only at h ⊢
        omega
      · simpa only [extendLeft, hg, if_false] using h

theorem extendRightAux_le (a b : List Char) (ahi bhi bi bj : ℕ) :
    ∀ fuel bs,
      (bi + bs ≤ ahi → bi + extendRightAux a b ahi bhi bi bj fuel bs ≤ ahi) ∧
        (bj + bs ≤ bhi → bj + extendRightAux a b ahi bhi bi bj fuel bs ≤ bhi) ∧
        bs ≤ extendRightAux a b ahi bhi bi bj fuel bs := by
  intro fuel
  induction fuel with
  | zero => intro bs; simp [extendRightAux]
  | succ fuel ih =>
    intro bs
    by_cases hg : bi + bs < ahi ∧ bj + bs < bhi ∧
        a.getD (bi + bs) dchar = b.getD (bj + bs) dchar
    · simp only [extendRightAux]
      rw [if_pos hg]
      have := ih (bs + 1)
      exact ⟨fun _ => this.1 (by omega), fun _ => this.2.1 (by omega), by omega⟩
    · simp only [extendRightAux]
      rw [if_neg hg]
      exact ⟨fun h => h, fun h => h, le_refl bs⟩

theorem scanPairs_mem (alo ahi blo bhi : ℕ) :
    ∀ p ∈ scanPairs alo ahi blo bhi,
      alo ≤ p.1 ∧ p.1 < ahi ∧ blo ≤ p.2 ∧ p.2 < bhi := by
  intro p hp
  unfold scanPairs at hp
  rw [List.mem_flatMap] at hp
  obtain ⟨i, hi, hp⟩ := hp
  rw [List.mem_map] at hp
  obtain ⟨j, hj, rfl⟩ := hp
  rw [List.mem_range'_1] at hi hj
  simp only
  omega

theorem find_longest_match_inv (a b : List Char) (alo ahi blo bhi : ℕ)
    (h1 : alo ≤ ahi) (h2 : blo ≤ bhi) :
    InWindow alo ahi blo bhi (find_longest_match a b alo ahi blo bhi) := by
  unfold find_longest_match extendRight
  dsimp only
  set s := bestScan a b alo blo (scanPairs alo ahi blo bhi) (alo, blo, 0) with hsdef
  set l := extendLeft a b alo blo s.1 s.2.1 s.2.2 with hldef
  have hs : InWindow alo ahi blo bhi s :=
    bestScan_inv a b alo blo ahi bhi _ _ (scanPairs_mem alo ahi blo bhi)
      ⟨le_refl _, le_refl _, by simpa using h1, by simpa using h2⟩
  have hl : InWindow alo ahi blo bhi l := extendLeft_inv a b alo blo ahi bhi s.1 s.2.1 s.2.2 hs
  have hr := extendRightAux_le a b ahi bhi l.1 l.2.1 (ahi - (l.1 + l.2.2)) l.2.2
  unfold InWindow at hl ⊢
  have hr1 := hr.1 hl.2.2.1
  have hr2 := (hr.2.1) hl.2.2.2
  have hr3 := hr.2.2
  dsimp only
  exact ⟨hl.1, hl.2.1, hr1, hr2⟩

theorem matchingBlocksAux_sum (a b : List Char) :
    ∀ fuel alo ahi blo bhi, alo ≤ ahi → blo ≤ bhi →
      ((matchingBlocksAux a b fuel alo ahi blo bhi).map (fun m => m.2.2)).sum ≤ ahi - alo ∧
        ((matchingBlocksAux a b fuel alo ahi blo bhi).map (fun m => m.2.2)).sum ≤ bhi - blo := by
  intro fuel
  induction fuel with
  | zero => intro alo ahi blo bhi _ _; simp [matchingBlocksAux]
  | succ fuel ih =>
    intro alo ahi blo bhi h1 h2
    have hinv := find_longest_match_inv a b alo ahi blo bhi h1 h2
    set m := find_longest_match a b alo ahi blo bhi with hmdef
    unfold InWindow at hinv
    by_cases hk : m.2.2 = 0
    · simp [matchingBlocksAux, ← hmdef, hk]
    · have hL := ih alo m.1 blo m.2.1 hinv.1 hinv.2.1
      have hR := ih (m.1 + m.2.2) ahi (m.2.1 + m.2.2) bhi hinv.2.2.1 hinv.2.2.2
      simp only [matchingBlocksAux, ← hmdef, hk, if_false, List.map_append,
        List.map_cons, List.sum_append, List.sum_cons]
      omega

theorem totalMatched_le (a b : List Char) :
    totalMatched a b ≤ a.length ∧ totalMatched a b ≤ b.length := by
  have := matchingBlocksAux_sum a b (a.length + 1) 0 a.length 0 b.length
    (Nat.zero_le _) (Nat.zero_le _)
  unfold totalMatched matchingBlocks
  omega

/-- The fuel of `matchingBlocksAux` is irrelevant as soon as it exceeds the
first window length: the recursion always terminates before the fuel runs
out, so `matchingBlocks` computes the untruncated block decomposition. -/
theorem matchingBlocksAux_fuel (a b : List Char) :
    ∀ f g alo ahi blo bhi, alo ≤ ahi → blo ≤ bhi →
      ahi - alo < f → ahi - alo < g →
      matchingBlocksAux a b f alo ahi blo bhi = matchingBlocksAux a b g alo ahi blo bhi := by
  intro f
  induction f with
  | zero => intro g alo ahi blo bhi _ _ hf _; omega
  | succ f ihf =>
    intro g alo ahi blo bhi h1 h2 hf hg
    match g with
    | 0 => omega
    | g + 1 =>
      have hinv := find_longest_match_inv a b alo ahi blo bhi h1 h2
      set m := find_longest_match a b alo ahi blo bhi with hmdef
      unfold InWindow at hinv
      by_cases hk : m.2.2 = 0
      · simp [matchingBlocksAux, ← hmdef, hk]
      · have hL := ihf g alo m.1 blo m.2.1 hinv.1 hinv.2.1 (by omega) (by omega)
        have hR := ihf g (m.1 + m.2.2) ahi (m.2.1 + m.2.2) bhi
          hinv.2.2.1 hinv.2.2.2 (by omega) (by omega)
        simp only [matchingBlocksAux, ← hmdef, hk, if_false, hL, hR]

/-! ### Bounds on the ratio and the score -/

theorem sm_ratioF_den_pos (a b : List Char) : 0 < (sm_ratioF a b).den := by
  unfold sm_ratioF
  by_cases h : a.length + b.length = 0
  · simp [h]
  · simp only [h, if_false]
    omega

theorem sm_ratio_nonneg (a b : List Char) : 0 ≤ sm_ratio a b :=
  Frac.toQ_nonneg _

theorem sm_ratio_le_one (a b : List Char) : sm_ratio a b ≤ 1 := by
  unfold sm_ratio sm_ratioF
  by_cases h : a.length + b.length = 0
  · simp [h, Frac.toQ]
  · have hm := totalMatched_le a b
    have hpos : (0 : ℚ) < ((a.length + b.length : ℕ) : ℚ) := by
      exact_mod_cast Nat.pos_of_ne_zero h
    simp only [h, if_false, Frac.toQ]
    rw [div_le_one (by exact_mod_cast hpos)]
    exact_mod_cast (by omega : 2 * totalMatched a b ≤ a.length + b.length)

theorem keyword_hits_le (s p : List Char) :
    keyword_hits s p ≤ (wordTokens (pyLower p)).length := by
  unfold keyword_hits
  exact List.length_filter_le _ _

/-! ### Facts about the segmentation spans -/

theorem drop_succ_of_drop_cons {text : List Char} {i : ℕ} {c : Char} {cs : List Char}
    (h : text.drop i = c :: cs) : text.drop (i + 1) = cs := by
  rw [← List.tail_drop, h, List.tail_cons]

theorem getElem?_of_drop_cons {text : List Char} {i : ℕ} {c : Char} {cs : List Char}
    (h : text.drop i = c :: cs) : text[i]? = some c := by
  have h0 : (text.drop i)[0]? = some c := by rw [h]; simp
  rwa [List.getElem?_drop, Nat.add_zero] at h0

theorem pySlice_refl (text : List Char) (i : ℕ) : pySlice text i i = [] := by
  unfold pySlice
  simp

theorem pySlice_extend {text : List Char} {i : ℕ} {c : Char} {cs : List Char}
    (h : text.drop i = c :: cs) {s : ℕ} (hs : s ≤ i) :
    pySlice text s (i + 1) = pySlice text s i ++ [c] := by
  unfold pySlice
  have h1 : i + 1 - s = (i - s) + 1 := by omega
  rw [h1, List.take_succ]
  congr 1
  rw [List.getElem?_drop]
  have h2 : s + (i - s) = i := by omega
  rw [h2, getElem?_of_drop_cons h]
  rfl

theorem mem_of_getLast' {l : List Char} {a : Char} (h : l.getLast? = some a) :
    a ∈ l := by
  have hne : l ≠ [] := by
    intro hh
    rw [hh] at h
    simp at h
  have hg : l.getLast hne = a := by
    rw [List.getLast?_eq_getLast l hne, Option.some_inj] at h
    exact h
  rw [← List.dropLast_append_getLast hne, hg]
  simp

/-- A terminator character is not whitespace. -/
theorem term_not_space {ch : Char} (h : isTerm ch = true) : isPySpace ch = false := by
  unfold isTerm at h
  simp only [Bool.or_eq_true, decide_eq_true_eq, or_assoc] at h
  rcases h with h | h | h <;> subst h <;> decide

/-- Every span emitted by the scan describes a slice whose characters are
all outside the break class, except possibly a final terminator. -/
theorem segSpans_slice (text : List Char) :
    ∀ (l : List Char) (i : ℕ) (cur : Option ℕ),
      text.drop i = l →
      (∀ s₀, cur = some s₀ → s₀ ≤ i ∧ ∀ ch ∈ pySlice text s₀ i, isBreak ch = false) →
      ∀ sp ∈ segSpans i cur l,
        (∀ ch ∈ (pySlice text sp.1 sp.2).dropLast, isBreak ch = false) ∧
          (∀ ch, (pySlice text sp.1 sp.2).getLast? = some ch →
            isBreak ch = false ∨ isTerm ch = true) := by
  intro l
  induction l with
  | nil =>
    intro i cur hdrop hcur sp hsp
    match cur with
    | none => simp [segSpans] at hsp
    | some s₀ =>
      simp only [segSpans, List.mem_singleton] at hsp
      subst hsp
      obtain ⟨hle, hall⟩ := hcur s₀ rfl
      refine ⟨fun ch hch => hall ch (List.dropLast_sublist _ |>.mem hch), ?_⟩
      intro ch hch
      exact Or.inl (hall ch (mem_of_getLast' hch))
  | cons c cs ih =>
    intro i cur hdrop hcur sp hsp
    have hdrop' : text.drop (i + 1) = cs := drop_succ_of_drop_cons hdrop
    have hnocur : ∀ s : ℕ, (none : Option ℕ) = some s →
        s ≤ i + 1 ∧ ∀ ch ∈ pySlice text s (i + 1), isBreak ch = false := by
      intro s hs
      cases hs
    by_cases hT : isTerm c = true
    · cases cur with
      | some s₀ =>
        obtain ⟨hle, hall⟩ := hcur s₀ rfl
        simp only [segSpans, hT, if_true, List.mem_cons] at hsp
        rcases hsp with hsp | hsp
        · subst hsp
          have hslice : pySlice text s₀ (i + 1) = pySlice text s₀ i ++ [c] :=
            pySlice_extend hdrop hle
          dsimp only
          rw [hslice]
          constructor
          · rw [List.dropLast_concat]
            exact hall
          · intro ch hch
            rw [List.getLast?_concat] at hch
            exact Or.inr ((Option.some_inj.mp hch) ▸ hT)
        · exact ih (i + 1) none hdrop' hnocur sp hsp
      | none =>
        simp only [segSpans, hT, if_true] at hsp
        exact ih (i + 1) none hdrop' hnocur sp hsp
    · have hTf : isTerm c = false := by simpa using hT
      by_cases hB : isBreak c = true
      · cases cur with
        | some s₀ =>
          obtain ⟨hle, hall⟩ := hcur s₀ rfl
          simp only [segSpans, hTf, Bool.false_eq_true, if_false, hB, if_true,
            List.mem_cons] at hsp
          rcases hsp with hsp | hsp
          · subst hsp
            dsimp only
            refine ⟨fun ch hch => hall ch (List.dropLast_sublist _ |>.mem hch), ?_⟩
            intro ch hch
            exact Or.inl (hall ch (mem_of_getLast' hch))
          · exact ih (i + 1) none hdrop' hnocur sp hsp
        | none =>
          simp only [segSpans, hTf, Bool.false_eq_true, if_false, hB, if_true] at hsp
          exact ih (i + 1) none hdrop' hnocur sp hsp
      · have hBf : isBreak c = false := by simpa using hB
        cases cur with
        | some s =>
          obtain ⟨hle, hall⟩ := hcur s rfl
          simp only [segSpans, hTf, hBf, Bool.false_eq_true, if_false,
            Option.getD_some] at hsp
          refine ih (i + 1) (some s) hdrop' ?_ sp hsp
          intro s' hs'
          rw [Option.some_inj] at hs'
          subst hs'
          refine ⟨by omega, ?_⟩
          rw [pySlice_extend hdrop hle]
          intro ch hch
          rcases List.mem_append.mp hch with hch | hch
          · exact hall ch hch
          · rw [List.mem_singleton] at hch
            exact hch ▸ hBf
        | none =>
          simp only [segSpans, hTf, hBf, Bool.false_eq_true, if_false,
            Option.getD_none] at hsp
          refine ih (i + 1) (some i) hdrop' ?_ sp hsp
          intro s' hs'
          rw [Option.some_inj] at hs'
          subst hs'
          refine ⟨by omega, ?_⟩
          rw [pySlice_extend hdrop (le_refl i), pySlice_refl, List.nil_append]
          intro ch hch
          rw [List.mem_singleton] at hch
          exact hch ▸ hBf

/-! ### Facts about stripping -/

theorem pyStrip_sublist (l : List Char) : (pyStrip l).Sublist l := by
  unfold pyStrip
  have h1 : ((l.dropWhile isPySpace).reverse.dropWhile isPySpace).Sublist
      (l.dropWhile isPySpace).reverse := List.dropWhile_sublist _
  have h2 := h1.reverse
  simp only [List.reverse_reverse] at h2
  exact h2.trans (List.dropWhile_sublist _)

theorem mem_pyStrip {l : List Char} {ch : Char} (h : ch ∈ pyStrip l) : ch ∈ l :=
  (pyStrip_sublist l).mem h

theorem pyStrip_nil : pyStrip [] = [] := rfl

theorem pyStrip_concat_nonspace {body : List Char} {t : Char}
    (ht : isPySpace t = false) :
    pyStrip (body ++ [t]) = body.dropWhile isPySpace ++ [t] := by
  unfold pyStrip
  rw [List.dropWhile_append]
  by_cases hemp : (body.dropWhile isPySpace).isEmpty = true
  · rw [if_pos hemp]
    have hbody : body.dropWhile isPySpace = [] := List.isEmpty_iff.mp hemp
    rw [hbody, List.nil_append]
    simp [List.dropWhile, ht]
  · rw [if_neg hemp, List.reverse_append]
    simp only [List.reverse_singleton, List.singleton_append, List.dropWhile_cons, ht,
      Bool.false_eq_true, if_false]
    rw [List.reverse_cons, List.reverse_reverse]

/-! ### The candidates of a page -/

theorem mem_candidates {text p : List Char} {c : Candidate}
    (hc : c ∈ candidates text p) :
    ∃ sp ∈ pySegment text,
      c.snippet = pyStrip (pySlice text sp.1 sp.2) ∧ c.start = sp.1 ∧ c.stop = sp.2 ∧
        c.snippet ≠ [] ∧ c.score = compute_similarity c.snippet p := by
  unfold candidates at hc
  rw [List.mem_filterMap] at hc
  obtain ⟨sp, hsp, heq⟩ := hc
  by_cases hemp : pyStrip (pySlice text sp.1 sp.2) = []
  · simp [hemp] at heq
  · simp only [hemp, if_false, Option.some_inj] at heq
    subst heq
    exact ⟨sp, hsp, rfl, rfl, rfl, hemp, rfl⟩

theorem mem_find_snippets {text p : List Char} {k : ℕ} {c : Candidate}
    (hc : c ∈ find_snippets text p k) : c ∈ candidates text p := by
  unfold find_snippets at hc
  exact (mem_sortKeyed scoreBefore _ c).mp (List.mem_of_mem_take hc)

/-- Character-level invariant of every candidate snippet: no break-class
character anywhere except possibly a final terminator. -/
theorem candidate_snippet_chars {text p : List Char} {c : Candidate}
    (hc : c ∈ candidates text p) :
    (∀ ch ∈ c.snippet.dropLast, isBreak ch = false) ∧
      (∀ ch ∈ c.snippet, isBreak ch = false ∨ isTerm ch = true) := by
  obtain ⟨sp, hsp, hsnip, -, -, -, -⟩ := mem_candidates hc
  have hspan := segSpans_slice text text 0 none (by simp)
    (fun s hs => by cases hs) sp hsp
  set sl := pySlice text sp.1 sp.2 with hsl
  obtain ⟨hdl, hl⟩ := hspan
  rcases hlast : sl.getLast? with _ | ch
  · have hnil : sl = [] := by simpa [List.getLast?_eq_none_iff] using hlast
    rw [hsnip, hnil, pyStrip_nil]
    simp
  · have hne : sl ≠ [] := by
      intro h
      rw [h] at hlast
      simp at hlast
    have hg : sl.getLast hne = ch := by
      rw [List.getLast?_eq_getLast sl hne, Option.some_inj] at hlast
      exact hlast
    have hdecomp : sl.dropLast ++ [ch] = sl := by
      rw [← hg]
      exact List.dropLast_append_getLast hne
    rw [hsnip]
    rcases hl ch hlast with hchf | hcht
    · have hall : ∀ x ∈ sl, isBreak x = false := by
        intro x hx
        rw [← hdecomp] at hx
        rcases List.mem_append.mp hx with hx | hx
        · exact hdl x hx
        · rw [List.mem_singleton] at hx
          exact hx ▸ hchf
      constructor
      · intro x hx
        exact hall x (mem_pyStrip ((List.dropLast_sublist _).mem hx))
      · intro x hx
        exact Or.inl (hall x (mem_pyStrip hx))
    · have hts : isPySpace ch = false := term_not_space hcht
      have hstrip : pyStrip sl = sl.dropLast.dropWhile isPySpace ++ [ch] := by
        conv_lhs => rw [← hdecomp]
        exact pyStrip_concat_nonspace hts
      constructor
      · intro x hx
        rw [hstrip, List.dropLast_concat] at hx
        exact hdl x ((List.dropWhile_sublist _).mem hx)
      · intro x hx
        rw [hstrip] at hx
        rcases List.mem_append.mp hx with hx | hx
        · exact Or.inl (hdl x ((List.dropWhile_sublist _).mem hx))
        · rw [List.mem_singleton] at hx
          exact Or.inr (hx ▸ hcht)

/-! ### The Page Matcher -/

theorem candidates_score {text p : List Char} {c : Candidate}
    (hc : c ∈ candidates text p) : c.score = compute_similarity c.snippet p := by
  obtain ⟨sp, -, -, -, -, -, hsc⟩ := mem_candidates hc
  exact hsc

theorem candidates_den_pos {text p : List Char} {c : Candidate}
    (hc : c ∈ candidates text p) : 0 < c.score.den := by
  rw [candidates_score hc]
  exact compute_similarity_den_pos _ _

theorem find_snippets_length (text p : List Char) (k : ℕ) :
    (find_snippets text p k).length ≤ k := by
  unfold find_snippets
  rw [List.length_take]
  exact min_le_left _ _

theorem find_snippets_sorted (text p : List Char) (k : ℕ) :
    (find_snippets text p k).Pairwise (fun x y => y.score.toQ ≤ x.score.toQ) := by
  unfold find_snippets
  refine (sortKeyed_pairwise scoreBefore ?_ (candidates text p) ?_ ?_).sublist
    (List.take_sublist _ _)
  · exact fun x y z h1 h2 => le_trans h2 h1
  · intro c hc d hd hb
    exact le_of_lt ((Frac.blt_iff c.score d.score
      (candidates_den_pos hc) (candidates_den_pos hd)).mp hb)
  · intro c hc d hd hb
    exact (Frac.blt_false_iff c.score d.score
      (candidates_den_pos hc) (candidates_den_pos hd)).mp hb

theorem find_snippets_stable (text p : List Char) (k : ℕ) (q : ℚ) :
    ((find_snippets text p k).filter (fun c => decide (c.score.toQ = q))).Sublist
      ((candidates text p).filter (fun c => decide (c.score.toQ = q))) := by
  have hall : ∀ c ∈ candidates text p, ∀ d ∈ candidates text p,
      scoreBefore d c = true → d.score.toQ ≠ c.score.toQ := by
    intro c hc d hd hb
    exact ne_of_gt ((Frac.blt_iff c.score d.score
      (candidates_den_pos hc) (candidates_den_pos hd)).mp hb)
  have h2 := filter_sortKeyed scoreBefore (fun c : Candidate => c.score.toQ) q
    (candidates text p) hall
  have h1 : ((find_snippets text p k).filter (fun c => decide (c.score.toQ = q))).Sublist
      ((sortKeyed scoreBefore (candidates text p)).filter
        (fun c => decide (c.score.toQ = q))) :=
    (List.take_sublist _ _).filter _
  exact h1.trans (h2 ▸ List.Sublist.refl _)

theorem find_snippets_eq_nil_iff (text p : List Char) :
    find_snippets text p 2 = [] ↔ candidates text p = [] := by
  unfold find_snippets
  rw [List.take_eq_nil_iff]
  constructor
  · rintro (h | h)
    · exact absurd h (by decide)
    · exact List.perm_nil.mp (h ▸ (sortKeyed_perm scoreBefore (candidates text p)).symm)
  · intro h
    right
    rw [h]
    rfl

/-! ### The Pointer Aggregator -/

theorem mem_flatMatches {p : List Char} {pages : List Page} {e : MatchEntry} :
    e ∈ flatMatches p pages ↔
      ∃ pg ∈ pages, ∃ c ∈ find_snippets pg.text p 2, e = mkMatchEntry p pg.page c := by
  unfold flatMatches
  rw [List.mem_flatMap]
  constructor
  · rintro ⟨pg, hpg, he⟩
    rw [List.mem_map] at he
    obtain ⟨c, hc, he⟩ := he
    exact ⟨pg, hpg, c, hc, he.symm⟩
  · rintro ⟨pg, hpg, c, hc, he⟩
    exact ⟨pg, hpg, List.mem_map.mpr ⟨c, hc, he.symm⟩⟩

theorem flatMatches_page {p : List Char} {pages : List Page} {e : MatchEntry}
    (he : e ∈ flatMatches p pages) : ∃ n, e.page = some n := by
  obtain ⟨pg, -, c, -, rfl⟩ := mem_flatMatches.mp he
  exact ⟨pg.page, rfl⟩

theorem build_response_entry_matchList (p : List Char) (pages : List Page) :
    (build_response_entry p pages).matchList =
      if flatMatches p pages = [] then [noMatchEntry]
      else sortKeyed pageBefore (flatMatches p pages) := by
  unfold build_response_entry
  by_cases h : flatMatches p pages = [] <;> simp [h]

theorem build_response_entry_ne_nil (p : List Char) (pages : List Page) :
    (build_response_entry p pages).matchList ≠ [] := by
  rw [build_response_entry_matchList]
  by_cases h : flatMatches p pages = []
  · simp [h]
  · simp only [h, if_false]
    intro hnil
    exact h (List.perm_nil.mp (hnil ▸ (sortKeyed_perm pageBefore (flatMatches p pages)).symm))

theorem flatMatches_of_empty_pages (p : List Char) (pages : List Page)
    (h : ∀ pg ∈ pages, pg.text = []) : flatMatches p pages = [] := by
  induction pages with
  | nil => rfl
  | cons pg pgs ih =>
    unfold flatMatches
    rw [List.flatMap_cons]
    have htext : pg.text = [] := h pg (List.mem_cons_self _ _)
    have hfs : find_snippets pg.text p 2 = [] := by rw [htext]; rfl
    rw [hfs]
    have hrest := ih (fun q hq => h q (List.mem_cons_of_mem _ hq))
    unfold flatMatches at hrest
    rw [List.map_nil, List.nil_append, hrest]

theorem filter_flatMatches (p : List Char) (pages : List Page)
    (hdist : pages.Pairwise (fun x y => x.page ≠ y.page)) :
    ∀ pg ∈ pages,
      (flatMatches p pages).filter (fun e => decide (e.page = some pg.page)) =
        (find_snippets pg.text p 2).map (mkMatchEntry p pg.page) := by
  induction pages with
  | nil => intro pg hpg; cases hpg
  | cons q qs ih =>
    intro pg hpg
    rcases List.pairwise_cons.mp hdist with ⟨hq, hqs⟩
    unfold flatMatches
    rw [List.flatMap_cons, List.filter_append]
    rcases List.mem_cons.mp hpg with hpg | hpg
    · subst hpg
      have h1 : ((find_snippets pg.text p 2).map (mkMatchEntry p pg.page)).filter
          (fun e => decide (e.page = some pg.page)) =
          (find_snippets pg.text p 2).map (mkMatchEntry p pg.page) := by
        refine List.filter_eq_self.mpr ?_
        intro e he
        rw [List.mem_map] at he
        obtain ⟨c, -, rfl⟩ := he
        simp [mkMatchEntry]
      have h2 : (flatMatches p qs).filter (fun e => decide (e.page = some pg.page)) = [] := by
        refine List.filter_eq_nil_iff.mpr ?_
        intro e he
        obtain ⟨r, hr, c, -, rfl⟩ := mem_flatMatches.mp he
        simp only [mkMatchEntry, decide_eq_true_eq, Option.some_inj]
        exact fun hrp => hq r hr hrp.symm
      rw [h1]
      unfold flatMatches at h2
      rw [h2, List.append_nil]
    · have h1 : ((find_snippets q.text p 2).map (mkMatchEntry p q.page)).filter
          (fun e => decide (e.page = some pg.page)) = [] := by
        refine List.filter_eq_nil_iff.mpr ?_
        intro e he
        rw [List.mem_map] at he
        obtain ⟨c, -, rfl⟩ := he
        simp only [mkMatchEntry, decide_eq_true_eq, Option.some_inj]
        exact hq pg hpg
      have h2 := ih hqs pg hpg
      unfold flatMatches at h2
      rw [h1, h2, List.nil_append]

/-! ### Asymmetry witnesses for the similarity measure -/

theorem ratio_asym :
    sm_ratio "aba".data "babba".data ≠ sm_ratio "babba".data "aba".data := by
  have h1 : totalMatched "aba".data "babba".data = 3 := by decide
  have h2 : totalMatched "babba".data "aba".data = 2 := by decide
  have hl1 : ("aba".data).length = 3 := rfl
  have hl2 : ("babba".data).length = 5 := rfl
  unfold sm_ratio sm_ratioF
  rw [hl1, hl2, h1, h2]
  unfold Frac.toQ
  norm_num

theorem score_asym :
    scoreQ "ab".data "a b".data ≠ scoreQ "a b".data "ab".data := by
  have h1 : compute_similarity "ab".data "a b".data = ⟨50, 50⟩ := by decide
  have h2 : compute_similarity "a b".data "ab".data = ⟨40, 50⟩ := by decide
  unfold scoreQ
  rw [h1, h2]
  unfold Frac.toQ
  norm_num

/-! ### Decomposition of the score -/

theorem scoreQ_eq (s p : List Char) :
    scoreQ s p = sm_ratio (pyLower s) (pyLower p) + (1 / 10 : ℚ) * keyword_hits s p := by
  unfold scoreQ compute_similarity sm_ratio
  rw [Frac.toQ_add _ _ (sm_ratioF_den_pos _ _).ne' (by norm_num)]
  congr 1
  unfold Frac.toQ
  push_cast
  ring

theorem keyword_hits_empty (s : List Char) : keyword_hits s [] = 0 := rfl

/-! ### Claims -/

/-- C2: for every pointer and non-empty trimmed sentence the score is the
sequence ratio of the lower-cased texts plus 0.1 per keyword hit, where the
ratio is 2 times the matched characters over the total length and lies in
[0, 1]; the hits count the pointer tokens contained in the sentence; the
score is nonnegative, and for an empty pointer it is the ratio alone. -/
theorem claim_C2 (s p : List Char) (_hs : pyStrip s = s) (hne : s ≠ []) :
    0 ≤ scoreQ s p
  ∧ scoreQ s p = sm_ratio (pyLower s) (pyLower p) + (1 / 10 : ℚ) * keyword_hits s p
  ∧ 0 ≤ sm_ratio (pyLower s) (pyLower p)
  ∧ sm_ratio (pyLower s) (pyLower p) ≤ 1
  ∧ sm_ratio (pyLower s) (pyLower p) =
      2 * (totalMatched (pyLower s) (pyLower p) : ℚ) /
        ((s.length : ℚ) + (p.length : ℚ))
  ∧ keyword_hits s p =
      ((wordTokens (pyLower p)).filter (fun t => substr t (pyLower s))).length
  ∧ (p = [] → scoreQ s p = sm_ratio (pyLower s) (pyLower p)) := by
  refine ⟨Frac.toQ_nonneg _, scoreQ_eq s p, sm_ratio_nonneg _ _, sm_ratio_le_one _ _,
    ?_, rfl, ?_⟩
  · have hlen : (pyLower s).length = s.length := by simp [pyLower]
    have hlenp : (pyLower p).length = p.length := by simp [pyLower]
    have hcond : ¬((pyLower s).length + (pyLower p).length = 0) := by
      rw [hlen, hlenp]
      have : s.length ≠ 0 := fun h0 => hne (List.length_eq_zero.mp h0)
      omega
    unfold sm_ratio sm_ratioF
    rw [if_neg hcond]
    unfold Frac.toQ
    rw [hlen, hlenp]
    push_cast
    ring
  · intro hp
    subst hp
    rw [scoreQ_eq, keyword_hits_empty]
    push_cast
    ring

theorem claim_C2_witness :
    pyStrip "ab".data = "ab".data ∧ "ab".data ≠ ([] : List Char) ∧
      0 ≤ scoreQ "ab".data "ab".data :=
  ⟨by decide, by decide, (claim_C2 "ab".data "ab".data (by decide) (by decide)).1⟩

/-- C3: the Page Matcher returns at most `maxSnippets` candidates, in
nonincreasing score order, stable for ties (equal-score candidates appear
as a subsequence of the scan order), and every returned candidate is the
stripped slice of the page text at its own offsets. -/
theorem claim_C3 (text pointer : List Char) (k : ℕ) :
    (find_snippets text pointer k).length ≤ k
  ∧ (find_snippets text pointer k).Pairwise (fun x y => y.score.toQ ≤ x.score.toQ)
  ∧ (∀ c ∈ find_snippets text pointer k,
      c ∈ candidates text pointer ∧ pyStrip (pySlice text c.start c.stop) = c.snippet)
  ∧ ∀ q : ℚ,
      ((find_snippets text pointer k).filter (fun c => decide (c.score.toQ = q))).Sublist
        ((candidates text pointer).filter (fun c => decide (c.score.toQ = q))) := by
  refine ⟨find_snippets_length text pointer k, find_snippets_sorted text pointer k,
    ?_, find_snippets_stable text pointer k⟩
  intro c hc
  have hcand := mem_find_snippets hc
  refine ⟨hcand, ?_⟩
  obtain ⟨sp, -, hsnip, hstart, hstop, -, -⟩ := mem_candidates hcand
  rw [hstart, hstop, ← hsnip]

theorem claim_C3_witness :
    (find_snippets "ab. cd".data "cd".data 2).length ≤ 2 ∧
      (find_snippets "ab. cd".data "cd".data 2).length = 2 :=
  ⟨(claim_C3 "ab. cd".data "cd".data 2).1, by decide⟩

/-- C4: the synthetic fallback entry appears in the report exactly when the
flattened candidate list is empty, which happens exactly when no page
produced any candidate; when it appears it is the whole match list, and the
match list is never empty. -/
theorem claim_C4 (pointer : List Char) (pages : List Page) :
    (noMatchEntry ∈ (build_response_entry pointer pages).matchList ↔
      flatMatches pointer pages = [])
  ∧ (flatMatches pointer pages = [] ↔
      ∀ pg ∈ pages, candidates pg.text pointer = [])
  ∧ (flatMatches pointer pages = [] →
      (build_response_entry pointer pages).matchList = [noMatchEntry])
  ∧ (build_response_entry pointer pages).matchList ≠ [] := by
  refine ⟨?_, ?_, ?_, build_response_entry_ne_nil pointer pages⟩
  · rw [build_response_entry_matchList]
    by_cases h : flatMatches pointer pages = []
    · simp [h]
    · simp only [h, if_false, iff_false]
      intro hmem
      have hm := (mem_sortKeyed pageBefore _ _).mp hmem
      obtain ⟨n, hn⟩ := flatMatches_page hm
      simp [noMatchEntry] at hn
  · unfold flatMatches
    rw [List.flatMap_eq_nil_iff]
    constructor
    · intro h pg hpg
      have := h pg hpg
      rw [List.map_eq_nil_iff] at this
      exact (find_snippets_eq_nil_iff pg.text pointer).mp this
    · intro h pg hpg
      rw [List.map_eq_nil_iff]
      exact (find_snippets_eq_nil_iff pg.text pointer).mpr (h pg hpg)
  · intro h
    rw [build_response_entry_matchList, if_pos h]

theorem claim_C4_witness :
    (build_response_entry "x".data ([] : List Page)).matchList = [noMatchEntry] :=
  (claim_C4 "x".data []).2.2.1 (by decide)

/-- C5: when at least one candidate exists, the report is the flattened
matches sorted by page number ascending with a stable sort: every entry
has a page number, entries with a given page number appear exactly as that
page produced them (score-descending Page Matcher order), and each entry
carries the interpolated rationale string for its own score. -/
theorem claim_C5 (pointer : List Char) (pages : List Page)
    (hne : flatMatches pointer pages ≠ [])
    (hdist : pages.Pairwise (fun x y => x.page ≠ y.page)) :
    (build_response_entry pointer pages).matchList.Pairwise
      (fun x y => pageKey x ≤ pageKey y)
  ∧ (∀ e ∈ (build_response_entry pointer pages).matchList, ∃ n, e.page = some n)
  ∧ (∀ e ∈ (build_response_entry pointer pages).matchList,
      ∃ pg ∈ pages, ∃ c ∈ find_snippets pg.text pointer 2,
        e = mkMatchEntry pointer pg.page c ∧
          e.rationale = rationaleText pointer c.score)
  ∧ ∀ pg ∈ pages,
      (build_response_entry pointer pages).matchList.filter
          (fun e => decide (e.page = some pg.page)) =
        (find_snippets pg.text pointer 2).map (mkMatchEntry pointer pg.page) := by
  have hml : (build_response_entry pointer pages).matchList =
      sortKeyed pageBefore (flatMatches pointer pages) := by
    rw [build_response_entry_matchList, if_neg hne]
  refine ⟨?_, ?_, ?_, ?_⟩
  · rw [hml]
    refine sortKeyed_pairwise pageBefore ?_ _ ?_ ?_
    · exact fun x y z h1 h2 => le_trans h1 h2
    · intro c _ d _ hb
      unfold pageBefore at hb
      rw [decide_eq_true_eq] at hb
      exact le_of_lt hb
    · intro c _ d _ hb
      unfold pageBefore at hb
      rw [decide_eq_false_iff_not] at hb
      omega
  · intro e he
    rw [hml, mem_sortKeyed] at he
    exact flatMatches_page he
  · intro e he
    rw [hml, mem_sortKeyed] at he
    obtain ⟨pg, hpg, c, hc, rfl⟩ := mem_flatMatches.mp he
    exact ⟨pg, hpg, c, hc, rfl, rfl⟩
  · intro pg hpg
    have hstab : ∀ c ∈ flatMatches pointer pages, ∀ d ∈ flatMatches pointer pages,
        pageBefore d c = true → d.page ≠ c.page := by
      intro c _ d _ hb heq
      unfold pageBefore at hb
      rw [decide_eq_true_eq] at hb
      unfold pageKey at hb
      rw [heq] at hb
      omega
    have h1 := filter_sortKeyed pageBefore (fun e : MatchEntry => e.page)
      (some pg.page) (flatMatches pointer pages) hstab
    have h2 := filter_flatMatches pointer pages hdist pg hpg
    rw [hml]
    exact h1.trans h2

theorem claim_C5_witness :
    flatMatches "ab".data [⟨1, "ab".data⟩] ≠ [] ∧
      ([(⟨1, "ab".data⟩ : Page)].Pairwise (fun x y => x.page ≠ y.page)) ∧
      (build_response_entry "ab".data [⟨1, "ab".data⟩]).matchList.Pairwise
        (fun x y => pageKey x ≤ pageKey y) :=
  ⟨by decide, by decide,
    (claim_C5 "ab".data [⟨1, "ab".data⟩] (by decide) (by decide)).1⟩

/-- C7 (amended): the score is invariant under case changes of either
argument, and neither the full score nor its ratio component is symmetric
in argument order in general. -/
theorem claim_C7 (s s2 p p2 : List Char)
    (hs : pyLower s = pyLower s2) (hp : pyLower p = pyLower p2) :
    scoreQ s p = scoreQ s2 p2
  ∧ (∃ a bb : List Char, sm_ratio a bb ≠ sm_ratio bb a)
  ∧ (∃ t q : List Char, scoreQ t q ≠ scoreQ q t) := by
  refine ⟨?_, ⟨"aba".data, "babba".data, ratio_asym⟩,
    ⟨"ab".data, "a b".data, score_asym⟩⟩
  unfold scoreQ compute_similarity keyword_hits
  rw [hs, hp]

/-- C7, counterexample to the claim as stated: the ratio component is not
symmetric in argument order. -/
theorem claim_C7_counterexample :
    sm_ratio "aba".data "babba".data ≠ sm_ratio "babba".data "aba".data :=
  ratio_asym

theorem claim_C7_witness :
    pyLower "AB".data = pyLower "ab".data ∧
      scoreQ "AB".data "AB".data = scoreQ "ab".data "ab".data :=
  ⟨by decide, (claim_C7 "AB".data "ab".data "AB".data "ab".data
    (by decide) (by decide)).1⟩

/-- C8: the document pipeline is total on its well-formed inputs: it yields
one report per pointer in order, every report has a nonempty match list,
each report is the aggregation for its pointer, and when every page has
empty text each report is exactly the synthetic no-match singleton. -/
theorem claim_C8 (pages : List Page) (pointers : List (List Char)) :
    (analyzeDocument pages pointers).length = pointers.length
  ∧ (∀ r ∈ analyzeDocument pages pointers, r.matchList ≠ [])
  ∧ (∀ r ∈ analyzeDocument pages pointers, ∃ p ∈ pointers, r = build_response_entry p pages)
  ∧ ((∀ pg ∈ pages, pg.text = []) →
      ∀ r ∈ analyzeDocument pages pointers, r.matchList = [noMatchEntry]) := by
  refine ⟨by simp [analyzeDocument], ?_, ?_, ?_⟩
  · intro r hr
    obtain ⟨p, -, rfl⟩ := List.mem_map.mp hr
    exact build_response_entry_ne_nil p pages
  · intro r hr
    obtain ⟨p, hp, rfl⟩ := List.mem_map.mp hr
    exact ⟨p, hp, rfl⟩
  · intro hempty r hr
    obtain ⟨p, -, rfl⟩ := List.mem_map.mp hr
    rw [build_response_entry_matchList, if_pos (flatMatches_of_empty_pages p pages hempty)]

theorem claim_C8_witness :
    (∀ pg ∈ [(⟨1, []⟩ : Page)], pg.text = ([] : List Char)) ∧
      ∀ r ∈ analyzeDocument [⟨1, []⟩] [['a']], r.matchList = [noMatchEntry] :=
  ⟨by decide, (claim_C8 [⟨1, []⟩] [['a']]).2.2.2 (by decide)⟩

/-- C9: no snippet ever contains the backslash or the letter n, and the
three terminator characters can occur only as a snippet final character. -/
theorem claim_C9 (text pointer : List Char) (k : ℕ) :
    ∀ c ∈ find_snippets text pointer k,
      (∀ ch ∈ c.snippet, ch ≠ bslash ∧ ch ≠ 'n')
    ∧ (∀ ch ∈ c.snippet.dropLast, ch ≠ '.' ∧ ch ≠ '!' ∧ ch ≠ '?') := by
  intro c hc
  obtain ⟨hdl, hall⟩ := candidate_snippet_chars (mem_find_snippets hc)
  constructor
  · intro ch hch
    rcases hall ch hch with hb | ht
    · unfold isBreak isTerm at hb
      simp only [Bool.or_eq_false_iff, decide_eq_false_iff_not] at hb
      exact ⟨hb.1.2, hb.2⟩
    · unfold isTerm at ht
      simp only [Bool.or_eq_true, decide_eq_true_eq, or_assoc] at ht
      rcases ht with ht | ht | ht <;> subst ht <;> exact ⟨by decide, by decide⟩
  · intro ch hch
    have hb := hdl ch hch
    unfold isBreak isTerm at hb
    simp only [Bool.or_eq_false_iff, decide_eq_false_iff_not] at hb
    exact ⟨hb.1.1.1.1, hb.1.1.1.2, hb.1.1.2⟩

theorem claim_C9_witness :
    (⟨"cd".data, 3, 6, compute_similarity "cd".data "cd".data⟩ : Candidate) ∈
        find_snippets "ab. cd".data "cd".data 2 ∧
      ('c' ≠ bslash ∧ 'c' ≠ 'n') :=
  ⟨by decide,
    (claim_C9 "ab. cd".data "cd".data 2
      ⟨"cd".data, 3, 6, compute_similarity "cd".data "cd".data⟩ (by decide)).1
      'c' (by decide)⟩

/-- C10: under exact arithmetic the score never exceeds 1 plus 0.1 per
word token of the lower-cased pointer. -/
theorem claim_C10 (s p : List Char) :
    scoreQ s p ≤ 1 + (1 / 10 : ℚ) * ((wordTokens (pyLower p)).length : ℚ) := by
  rw [scoreQ_eq]
  have h1 := sm_ratio_le_one (pyLower s) (pyLower p)
  have h2 : (keyword_hits s p : ℚ) ≤ ((wordTokens (pyLower p)).length : ℚ) := by
    exact_mod_cast keyword_hits_le s p
  linarith

/-- C1, code behaviour at the failing input: the character class of the
compiled pattern excludes the letter n (the raw string escapes the
backslash, not a newline), so the page text made of the two characters o
and n is segmented into the single span (0, 1) carrying only the letter o,
not the full two-character sentence span (0, 2) that the specified
terminator-only segmentation would produce. -/
theorem claim_C1_code_behavior :
    pySegment "on".data = [(0, 1)]
  ∧ pySegment "on".data ≠ [(0, 2)]
  ∧ (candidates "on".data "on".data).map (fun c => (c.snippet, c.start, c.stop)) =
      [(['o'], 0, 1)] := by decide

/-- C6, code behaviour at the failing input: on the documented scenario
page the segmentation splits at every letter n, so the produced snippets
are three fragments and no candidate snippet equals the full sentence,
although the keyword-hit count of the full sentence would indeed be 3. -/
theorem claim_C6_code_behavior :
    keyword_hits "Total contract value: $250,000 split across milestones.".data
        "total contract value".data = 3
  ∧ ((pySegment "Total contract value: $250,000 split across milestones.".data).map
      (fun sp => pyStrip (pySlice
        "Total contract value: $250,000 split across milestones.".data sp.1 sp.2))) =
      ["Total co".data, "tract value: $250,000 split across milesto".data, "es.".data]
  ∧ (∀ c ∈ candidates "Total contract value: $250,000 split across milestones.".data
        "total contract value".data,
      c.snippet ≠ "Total contract value: $250,000 split across milestones.".data) := by
  decide

end PDFFacts
